import Mathlib

/-!
Verification of `pylitterbot/utils.py` data-normalization primitives:
the redactor, the base64 codec, the timestamp normalizer and the
strict-default dict accessor.
-/

namespace Pylitterbot

/-- A JSON-like value: the `NestedValue` union consumed and produced by
`redact` (scalars, lists and string-keyed mappings as in Python). -/
inductive Value where
  | null : Value
  | str (s : String) : Value
  | num (n : Int) : Value
  | bool (b : Bool) : Value
  | list (items : List Value) : Value
  | dict (pairs : List (String × Value)) : Value
  deriving Repr

/-- `REDACTED` sentinel from `utils.py`. -/
def REDACTED : String := "**REDACTED**"

/-- `REDACT_FIELDS` list from `utils.py`. -/
def REDACT_FIELDS : List String :=
  ["token", "idToken", "refreshToken", "userId", "userEmail", "sessionId",
   "oneSignalPlayerId", "deviceId", "id", "litterRobotId", "unitId",
   "litterRobotSerial", "serial"]

mutual

/-- `redact(data)` from `utils.py`: scalars pass through, lists map
`redact`, dicts are copied with each key/value pair rewritten. -/
def redact : Value → Value
  | .list xs => .list (redactList xs)
  | .dict ps => .dict (redactPairs ps)
  | v => v

/-- The list comprehension `[redact(val) for val in data]`. -/
def redactList : List Value → List Value
  | [] => []
  | v :: vs => redact v :: redactList vs

/-- The `for key, value in redacted.items()` loop body of `redact`. -/
def redactPairs : List (String × Value) → List (String × Value)
  | [] => []
  | (k, v) :: ps => (k, redactKV k v) :: redactPairs ps

/-- One iteration of the loop in `redact`: `None` (`value is None`) and
empty strings (`isinstance(value, str) and not value`) are skipped,
sensitive keys get the sentinel, nested containers recurse, other
scalars are left unchanged. -/
def redactKV (k : String) (v : Value) : Value :=
  match v with
  | .null => .null
  | .str s => if s = "" then .str s
              else if k ∈ REDACT_FIELDS then .str REDACTED else .str s
  | .dict ps => if k ∈ REDACT_FIELDS then .str REDACTED else .dict (redactPairs ps)
  | .list xs => if k ∈ REDACT_FIELDS then .str REDACTED else .list (redactList xs)
  | .num n => if k ∈ REDACT_FIELDS then .str REDACTED else .num n
  | .bool b => if k ∈ REDACT_FIELDS then .str REDACTED else .bool b

end

example : redact (.dict [("token", .str "abc"), ("name", .str "Max")])
    = .dict [("token", .str REDACTED), ("name", .str "Max")] := rfl

/-- The "null value or empty-string value" guard, as the claim words it. -/
def isNullOrEmpty : Value → Bool
  | .null => true
  | .str s => s = ""
  | _ => false

/-- The per-pair redaction rule exactly as the claim states it: null or
empty string unchanged; else sensitive key gets the sentinel; else a
mapping or sequence is recursively redacted; else the scalar is kept. -/
def claimKV (k : String) (v : Value) : Value :=
  if isNullOrEmpty v then v
  else if k ∈ REDACT_FIELDS then .str REDACTED
  else match v with
    | .dict ps => redact (.dict ps)
    | .list xs => redact (.list xs)
    | v => v

/-- The structural skeleton of a `Value`: keys, sequence lengths and
nesting pattern, with all scalars collapsed to one tag. -/
inductive Shape where
  | scalar : Shape
  | list (items : List Shape) : Shape
  | dict (pairs : List (String × Shape)) : Shape
  deriving Repr

mutual

/-- `shape v` as the spec defines it (glossary "Shape"). -/
def shape : Value → Shape
  | .list xs => .list (shapeList xs)
  | .dict ps => .dict (shapePairs ps)
  | _ => .scalar

def shapeList : List Value → List Shape
  | [] => []
  | v :: vs => shape v :: shapeList vs

def shapePairs : List (String × Value) → List (String × Shape)
  | [] => []
  | (k, v) :: ps => (k, shape v) :: shapePairs ps

end

mutual

/-- The shape `redact` actually produces: as `shape`, except that a
sensitive key's non-null, non-empty value collapses to a scalar. -/
def shapeAmended : Value → Shape
  | .list xs => .list (shapeAmendedList xs)
  | .dict ps => .dict (shapeAmendedPairs ps)
  | _ => .scalar

def shapeAmendedList : List Value → List Shape
  | [] => []
  | v :: vs => shapeAmended v :: shapeAmendedList vs

def shapeAmendedPairs : List (String × Value) → List (String × Shape)
  | [] => []
  | (k, v) :: ps => (k, shapeAmendedKV k v) :: shapeAmendedPairs ps

def shapeAmendedKV (k : String) (v : Value) : Shape :=
  if isNullOrEmpty v then shape v
  else if k ∈ REDACT_FIELDS then .scalar
  else shapeAmended v

end

mutual

theorem redact_redact_aux : (v : Value) → redact (redact v) = redact v
  | .null => rfl
  | .str _ => rfl
  | .num _ => rfl
  | .bool _ => rfl
  | .list xs => by simp [redact, redactList_idem_aux xs]
  | .dict ps => by simp [redact, redactPairs_idem_aux ps]

theorem redactList_idem_aux :
    (xs : List Value) → redactList (redactList xs) = redactList xs
  | [] => rfl
  | v :: vs => by simp [redactList, redact_redact_aux v, redactList_idem_aux vs]

theorem redactPairs_idem_aux :
    (ps : List (String × Value)) → redactPairs (redactPairs ps) = redactPairs ps
  | [] => rfl
  | (k, v) :: ps => by
      simp [redactPairs, redactKV_idem_aux k v, redactPairs_idem_aux ps]

theorem redactKV_idem_aux :
    (k : String) → (v : Value) → redactKV k (redactKV k v) = redactKV k v
  | k, .null => rfl
  | k, .str s => by
      by_cases hs : s = "" <;> by_cases hk : k ∈ REDACT_FIELDS <;>
        simp [redactKV, hs, hk, REDACTED]
  | k, .num n => by by_cases hk : k ∈ REDACT_FIELDS <;> simp [redactKV, hk, REDACTED]
  | k, .bool b => by by_cases hk : k ∈ REDACT_FIELDS <;> simp [redactKV, hk, REDACTED]
  | k, .list xs => by
      by_cases hk : k ∈ REDACT_FIELDS <;>
        simp [redactKV, hk, REDACTED, redactList_idem_aux xs]
  | k, .dict ps => by
      by_cases hk : k ∈ REDACT_FIELDS <;>
        simp [redactKV, hk, REDACTED, redactPairs_idem_aux ps]

end

theorem redactKV_eq_claimKV (k : String) (v : Value) : redactKV k v = claimKV k v := by
  cases v with
  | null => rfl
  | str s =>
      by_cases hs : s = "" <;> by_cases hk : k ∈ REDACT_FIELDS <;>
        simp [redactKV, claimKV, isNullOrEmpty, hs, hk]
  | num n => by_cases hk : k ∈ REDACT_FIELDS <;>
      simp [redactKV, claimKV, isNullOrEmpty, hk]
  | bool b => by_cases hk : k ∈ REDACT_FIELDS <;>
      simp [redactKV, claimKV, isNullOrEmpty, hk]
  | list xs => by_cases hk : k ∈ REDACT_FIELDS <;>
      simp [redactKV, claimKV, isNullOrEmpty, hk, redact]
  | dict ps => by_cases hk : k ∈ REDACT_FIELDS <;>
      simp [redactKV, claimKV, isNullOrEmpty, hk, redact]

theorem redactPairs_eq_map_claimKV (ps : List (String × Value)) :
    redactPairs ps = ps.map fun p => (p.1, claimKV p.1 p.2) := by
  induction ps with
  | nil => rfl
  | cons p ps ih => cases p with
      | mk k v => simp [redactPairs, redactKV_eq_claimKV, ih]

mutual

theorem shape_redact_aux : (v : Value) → shape (redact v) = shapeAmended v
  | .null => by simp [redact, shape, shapeAmended]
  | .str _ => by simp [redact, shape, shapeAmended]
  | .num _ => by simp [redact, shape, shapeAmended]
  | .bool _ => by simp [redact, shape, shapeAmended]
  | .list xs => by simp [redact, shape, shapeAmended, shapeList_redact_aux xs]
  | .dict ps => by simp [redact, shape, shapeAmended, shapePairs_redact_aux ps]

theorem shapeList_redact_aux :
    (xs : List Value) → shapeList (redactList xs) = shapeAmendedList xs
  | [] => by simp [redactList, shapeList, shapeAmendedList]
  | v :: vs => by
      simp [redactList, shapeList, shapeAmendedList, shape_redact_aux v,
        shapeList_redact_aux vs]

theorem shapePairs_redact_aux :
    (ps : List (String × Value)) → shapePairs (redactPairs ps) = shapeAmendedPairs ps
  | [] => by simp [redactPairs, shapePairs, shapeAmendedPairs]
  | (k, v) :: ps => by
      simp [redactPairs, shapePairs, shapeAmendedPairs, shapeKV_redact_aux k v,
        shapePairs_redact_aux ps]

theorem shapeKV_redact_aux :
    (k : String) → (v : Value) → shape (redactKV k v) = shapeAmendedKV k v
  | k, .null => by simp [redactKV, shapeAmendedKV, isNullOrEmpty, shape]
  | k, .str s => by
      by_cases hs : s = "" <;> by_cases hk : k ∈ REDACT_FIELDS <;>
        simp [redactKV, shapeAmendedKV, isNullOrEmpty, shape, shapeAmended, hs, hk]
  | k, .num n => by
      by_cases hk : k ∈ REDACT_FIELDS <;>
        simp [redactKV, shapeAmendedKV, isNullOrEmpty, shape, shapeAmended, hk]
  | k, .bool b => by
      by_cases hk : k ∈ REDACT_FIELDS <;>
        simp [redactKV, shapeAmendedKV, isNullOrEmpty, shape, shapeAmended, hk]
  | k, .list xs => by
      by_cases hk : k ∈ REDACT_FIELDS <;>
        simp [redactKV, shapeAmendedKV, isNullOrEmpty, shape, shapeAmended, hk,
          shapeList_redact_aux xs]
  | k, .dict ps => by
      by_cases hk : k ∈ REDACT_FIELDS <;>
        simp [redactKV, shapeAmendedKV, isNullOrEmpty, shape, shapeAmended, hk,
          shapePairs_redact_aux ps]

end

/-- `DictWithStrictDefault.get` from `utils.py`: if the key exists and
its stored value is not `None`, return it; otherwise the default. -/
def dictStrictGet (d : List (String × Value)) (key : String) (dflt : Value) : Value :=
  match d.lookup key with
  | some v => match v with
      | .null => dflt
      | v => v
  | none => dflt

/-- C1: `redact` on a mapping keeps every key in its insertion order and
rewrites each pair by the claim's per-pair rule (null/empty unchanged
even for sensitive keys; sensitive key replaced by the sentinel
regardless of type; containers recurse; other scalars unchanged), and
the claim's concrete example redacts as stated. -/
theorem c1_redact_mapping_rule :
    (∀ ps : List (String × Value),
      redact (.dict ps) = .dict (ps.map fun p => (p.1, claimKV p.1 p.2)))
    ∧ redact (.dict [("token", .str "abc"), ("name", .str "Max"),
        ("nested", .dict [("deviceId", .str "d1"), ("note", .str "")])])
      = .dict [("token", .str "**REDACTED**"), ("name", .str "Max"),
        ("nested", .dict [("deviceId", .str "**REDACTED**"), ("note", .str "")])] := by
  refine ⟨fun ps => ?_, rfl⟩
  simp [redact, redactPairs_eq_map_claimKV]

/-- C4 counterexample: the claim "no key's subtree structure is removed
or collapsed by redaction" fails: a sensitive key (`id`) whose value is
itself a mapping has that mapping collapsed to the sentinel scalar. -/
theorem c4_shape_counterexample :
    shape (redact (.dict [("id", .dict [("a", .num 1)])]))
      ≠ shape (.dict [("id", .dict [("a", .num 1)])]) := by
  simp [redact, redactPairs, redactKV, REDACT_FIELDS, shape, shapePairs, shapeList]

/-- C4 (amended): `redact` preserves keys, key order and sequence
lengths, and the whole nesting pattern, except that a sensitive key's
non-null, non-empty value (even a mapping or sequence) is replaced by
the sentinel scalar, collapsing that one subtree. Formally the shape of
`redact v` is `shapeAmended v`. -/
theorem c4_redact_shape_amended (v : Value) : shape (redact v) = shapeAmended v :=
  shape_redact_aux v

/-- C5: redaction is idempotent: `redact (redact v) = redact v`. -/
theorem c5_redact_idempotent (v : Value) : redact (redact v) = redact v :=
  redact_redact_aux v

/-- C10: the strict-default lookup returns the default when the key is
absent or stored as null, and the stored value in every other case. -/
theorem c10_strict_default_get :
    (∀ d k dflt, List.lookup k d = none → dictStrictGet d k dflt = dflt)
    ∧ (∀ d k dflt, List.lookup k d = some .null → dictStrictGet d k dflt = dflt)
    ∧ (∀ d k dflt v, List.lookup k d = some v → v ≠ .null → dictStrictGet d k dflt = v) := by
  refine ⟨fun d k dflt h => ?_, fun d k dflt h => ?_, fun d k dflt v h hv => ?_⟩
  · simp [dictStrictGet, h]
  · simp [dictStrictGet, h]
  · cases v with
    | null => exact absurd rfl hv
    | str s => simp [dictStrictGet, h]
    | num n => simp [dictStrictGet, h]
    | bool b => simp [dictStrictGet, h]
    | list xs => simp [dictStrictGet, h]
    | dict ps => simp [dictStrictGet, h]

/-- Witness for C10 at concrete inputs: absent key, null value and a
present non-null value. -/
theorem c10_strict_default_get_witness :
    dictStrictGet [("a", Value.null), ("b", Value.num 2)] "c" (Value.num 7) = Value.num 7
    ∧ dictStrictGet [("a", Value.null), ("b", Value.num 2)] "a" (Value.num 7) = Value.num 7
    ∧ dictStrictGet [("a", Value.null), ("b", Value.num 2)] "b" (Value.num 7) = Value.num 2 :=
  ⟨c10_strict_default_get.1 _ _ _ rfl,
   c10_strict_default_get.2.1 _ _ _ rfl,
   c10_strict_default_get.2.2 _ _ _ (Value.num 2) rfl (by simp)⟩

/-! ## Timestamp normalization (`to_timestamp` in `utils.py`)

`to_timestamp` strips `"Z"`, appends `"+00:00"` when that exact substring
is absent, normalizes any `.digits` run to exactly 7 characters
(`.ljust(7, "0")[:7]`), and parses with `datetime.fromisoformat`.  The
parser modelled here is CPython's pure-Python `fromisoformat` algorithm
(`Lib/datetime.py`): a 10-character `YYYY-MM-DD` date, one ignored
separator character, `HH[:MM[:SS[.fff[fff]]]]`, and an optional UTC
offset introduced by the first `-` (else the first `+`) of the time part,
whose text must be 5, 8 or 15 characters long.  Numeric fields are
modelled as plain digit runs (Python's `int()` also tolerates leading
whitespace and `+`, which no claim here depends on). -/

/-- `pat.isPrefixOf s` written out (does `s` start with `pat`?). -/
def startsWithChars : List Char → List Char → Bool
  | [], _ => true
  | _ :: _, [] => false
  | p :: ps, c :: cs => p = c && startsWithChars ps cs

/-- Python's `pat in s` substring test. -/
def containsSub (pat : List Char) : List Char → Bool
  | [] => startsWithChars pat []
  | c :: rest => startsWithChars pat (c :: rest) || containsSub pat rest

/-- The characters of the `utc_offset` literal `"+00:00"`. -/
def utcOffsetChars : List Char := ['+', '0', '0', ':', '0', '0']

/-- `timestamp.replace("Z", "")`, guarded by `if "Z" in timestamp` as in
the source. -/
def zStrip (cs : List Char) : List Char :=
  if containsSub ['Z'] cs then cs.filter (fun c => c ≠ 'Z') else cs

/-- Does the list start with a decimal digit? -/
def headIsDigit : List Char → Bool
  | c :: _ => c.isDigit
  | [] => false

/-- `m.group().ljust(7, "0")[:7]` for a matched group `.digits`. -/
def pad7 (group : List Char) : List Char :=
  (group ++ List.replicate (7 - group.length) '0').take 7

/-- Fuel-driven scanner for `re.sub(r"(\.\d+)", ...)`: left-to-right,
each maximal `.digits` run replaced by `pad7`.  Fuel at least the length
of the list makes it total; `fracNorm` supplies exactly that. -/
def fracNormGo : Nat → List Char → List Char
  | 0, cs => cs
  | _ + 1, [] => []
  | fuel + 1, c :: rest =>
    if c = '.' ∧ headIsDigit rest then
      pad7 ('.' :: rest.takeWhile Char.isDigit) ++
        fracNormGo fuel (rest.dropWhile Char.isDigit)
    else c :: fracNormGo fuel rest

/-- `re.sub(r"(\.\d+)", lambda m: m.group().ljust(7, "0")[:7], timestamp)`. -/
def fracNorm (cs : List Char) : List Char := fracNormGo cs.length cs

/-- A Python `datetime` as produced by `fromisoformat`: calendar fields
plus an optional UTC offset in microseconds (`None` = offset-naive). -/
structure PyDateTime where
  year : Nat
  month : Nat
  day : Nat
  hour : Nat
  minute : Nat
  second : Nat
  microsecond : Nat
  utcoffset : Option Int
  deriving Repr, DecidableEq

/-- Numeric value of a digit character. -/
def digVal (c : Char) : Nat := c.toNat - 48

/-- Two-digit field (`int(tstr[pos:pos+2])` on a digit-only slice). -/
def nat2 (a b : Char) : Option Nat :=
  if a.isDigit ∧ b.isDigit then some (digVal a * 10 + digVal b) else none

/-- Four-digit field (the year). -/
def nat4 (a b c d : Char) : Option Nat :=
  if a.isDigit ∧ b.isDigit ∧ c.isDigit ∧ d.isDigit then
    some (((digVal a * 10 + digVal b) * 10 + digVal c) * 10 + digVal d)
  else none

/-- `_parse_isoformat_date`: exactly `YYYY-MM-DD` (10 characters, with
`dtstr[4]` and `dtstr[7]` checked to be `-` as in the source). -/
def parseIsoDate : List Char → Except String (Nat × Nat × Nat)
  | [y1, y2, y3, y4, c5, m1, m2, c8, d1, d2] =>
      if c5 = '-' ∧ c8 = '-' then
        match nat4 y1 y2 y3 y4, nat2 m1 m2, nat2 d1 d2 with
        | some y, some m, some d => .ok (y, m, d)
        | _, _, _ => .error "Invalid isoformat string"
      else .error "Invalid date separator"
  | _ => .error "Invalid isoformat string"

/-- The fraction after `.`: exactly 3 or 6 digits, 3 digits scaled by
1000 (`_parse_hh_mm_ss_ff`). -/
def parseFrac (cs : List Char) : Except String Nat :=
  if cs.length = 3 ∧ cs.all Char.isDigit then
    .ok ((cs.foldl (fun a c => a * 10 + digVal c) 0) * 1000)
  else if cs.length = 6 ∧ cs.all Char.isDigit then
    .ok (cs.foldl (fun a c => a * 10 + digVal c) 0)
  else .error "Invalid microsecond component"

/-- `_parse_hh_mm_ss_ff`: `HH[:MM[:SS[.fff[fff]]]]`.  Each separator is
read and checked against `:` (respectively `.` before the fraction) as
in the source's loop. -/
def parseHMSF : List Char → Except String (Nat × Nat × Nat × Nat)
  | h1 :: h2 :: rest =>
      match nat2 h1 h2 with
      | none => .error "invalid literal for int()"
      | some h =>
        match rest with
        | [] => .ok (h, 0, 0, 0)
        | c3 :: rest2 =>
          if c3 = ':' then
            match rest2 with
            | m1 :: m2 :: rest3 =>
                match nat2 m1 m2 with
                | none => .error "invalid literal for int()"
                | some m =>
                  match rest3 with
                  | [] => .ok (h, m, 0, 0)
                  | c6 :: rest4 =>
                    if c6 = ':' then
                      match rest4 with
                      | s1 :: s2 :: rest5 =>
                          match nat2 s1 s2 with
                          | none => .error "invalid literal for int()"
                          | some s =>
                            match rest5 with
                            | [] => .ok (h, m, s, 0)
                            | c9 :: frac =>
                              if c9 = '.' then
                                (parseFrac frac).map fun us => (h, m, s, us)
                              else .error "Invalid microsecond component"
                      | _ => .error "Incomplete time component"
                    else .error "Invalid time separator"
            | _ => .error "Incomplete time component"
          else .error "Invalid time separator"
  | _ => .error "Incomplete time component"

/-- `tz_pos` in `_parse_isoformat_time`: index of the first `-`, else of
the first `+`. -/
def tzSplitIdx (ts : List Char) : Option Nat :=
  match ts.findIdx? (fun c => c = '-') with
  | some i => some i
  | none => ts.findIdx? (fun c => c = '+')

/-- `_parse_isoformat_time`: time, then an optional offset whose text is
5, 8 or 15 characters; the `timezone` constructor requires the offset to
be strictly less than 24 hours in magnitude (all-zero offsets are
`timezone.utc`). -/
def parseIsoTime (ts : List Char) : Except String (Nat × Nat × Nat × Nat × Option Int) :=
  if ts.length < 2 then .error "Isoformat time too short"
  else match tzSplitIdx ts with
    | none => (parseHMSF ts).map fun (h, m, s, us) => (h, m, s, us, none)
    | some i =>
      let sign : Int := if ts.getD i ' ' = '-' then -1 else 1
      match parseHMSF (ts.take i) with
      | .error e => .error e
      | .ok (h, m, s, us) =>
        let tzstr := ts.drop (i + 1)
        if tzstr.length = 5 ∨ tzstr.length = 8 ∨ tzstr.length = 15 then
          match parseHMSF tzstr with
          | .error e => .error e
          | .ok (th, tm, tsec, tus) =>
            let total : Int := th * 3600000000 + tm * 60000000 + tsec * 1000000 + tus
            if total = 0 then .ok (h, m, s, us, some 0)
            else if total < 86400000000 then .ok (h, m, s, us, some (sign * total))
            else .error "offset must be strictly between -timedelta(hours=24) and timedelta(hours=24)"
        else .error "Malformed time zone string"

/-- Leap year rule used by `datetime.date`. -/
def isLeap (y : Nat) : Bool := y % 4 = 0 ∧ (y % 100 ≠ 0 ∨ y % 400 = 0)

/-- `days_in_month` used by `datetime.date`. -/
def daysInMonth (y m : Nat) : Nat :=
  if m = 2 then (if isLeap y then 29 else 28)
  else if m = 4 ∨ m = 6 ∨ m = 9 ∨ m = 11 then 30
  else 31

/-- `datetime.fromisoformat`: date from the first 10 characters, the
11th character is an ignored separator, time (with optional offset) from
the rest; then constructor range validation. -/
def fromisoformat (cs : List Char) : Except String PyDateTime :=
  let dstr := cs.take 10
  let tstr := cs.drop 11
  match parseIsoDate dstr with
  | .error _ => .error "Invalid isoformat string"
  | .ok (y, m, d) =>
    match (if tstr.isEmpty then Except.ok (0, 0, 0, 0, (none : Option Int))
           else parseIsoTime tstr) with
    | .error _ => .error "Invalid isoformat string"
    | .ok (h, mi, s, us, tz) =>
      if 1 ≤ y ∧ y ≤ 9999 ∧ 1 ≤ m ∧ m ≤ 12 ∧ 1 ≤ d ∧ d ≤ daysInMonth y m then
        if h ≤ 23 ∧ mi ≤ 59 ∧ s ≤ 59 then .ok ⟨y, m, d, h, mi, s, us, tz⟩
        else .error "time field out of range"
      else .error "date field out of range"

/-- The pre-parse string rewriting done by `to_timestamp`: strip `Z`,
append `"+00:00"` when absent, normalize fractions. -/
def normalizeTimestampChars (cs : List Char) : List Char :=
  let s1 := zStrip cs
  let s2 := if containsSub utcOffsetChars s1 then s1 else s1 ++ utcOffsetChars
  fracNorm s2

/-- `to_timestamp(timestamp)` from `utils.py`. -/
def to_timestamp (timestamp : Option String) : Except String (Option PyDateTime) :=
  match timestamp with
  | none => .ok none
  | some t =>
    if t = "" then .ok none
    else
      match fromisoformat (normalizeTimestampChars t.data) with
      | .ok dt => .ok (some dt)
      | .error e => .error e

instance decEqExcept {ε α : Type} [DecidableEq ε] [DecidableEq α] :
    DecidableEq (Except ε α)
  | .error e, .error f =>
    if h : e = f then isTrue (by rw [h]) else isFalse fun hh => h (Except.error.inj hh)
  | .ok a, .ok b =>
    if h : a = b then isTrue (by rw [h]) else isFalse fun hh => h (Except.ok.inj hh)
  | .error _, .ok _ => isFalse fun hh => by cases hh
  | .ok _, .error _ => isFalse fun hh => by cases hh

example : to_timestamp (some "2023-05-01T10:00:00.500000+00:00")
    = .ok (some ⟨2023, 5, 1, 10, 0, 0, 500000, some 0⟩) := by decide

theorem dropWhile_length_le (p : Char → Bool) :
    (l : List Char) → (l.dropWhile p).length ≤ l.length
  | [] => le_rfl
  | c :: rest => by
      rw [List.dropWhile_cons]
      by_cases hc : p c = true <;> simp [hc]
      · exact le_trans (dropWhile_length_le p rest) (Nat.le_succ _)

theorem fracNormGo_eq : (cs : List Char) → (f : Nat) → cs.length ≤ f →
    fracNormGo f cs = fracNorm cs
  | [], 0, _ => rfl
  | [], _ + 1, _ => rfl
  | c :: rest, f + 1, h => by
      have hr : rest.length ≤ f := by simpa using h
      have hd : (rest.dropWhile Char.isDigit).length ≤ rest.length :=
        dropWhile_length_le _ _
      show _ = fracNormGo (rest.length + 1) (c :: rest)
      rw [fracNormGo, fracNormGo]
      by_cases hc : c = '.' ∧ headIsDigit rest
      · rw [if_pos hc, if_pos hc,
          fracNormGo_eq (rest.dropWhile Char.isDigit) f (le_trans hd hr),
          fracNormGo_eq (rest.dropWhile Char.isDigit) rest.length hd]
      · rw [if_neg hc, if_neg hc, fracNormGo_eq rest f hr,
          fracNormGo_eq rest rest.length le_rfl]
termination_by cs _ _ => cs.length
decreasing_by
  all_goals first
    | exact lt_of_le_of_lt hd (Nat.lt_succ_self _)
    | exact Nat.lt_succ_self _

theorem fracNorm_nil : fracNorm [] = [] := rfl

theorem fracNorm_cons (c : Char) (rest : List Char) :
    fracNorm (c :: rest) =
      if c = '.' ∧ headIsDigit rest then
        pad7 ('.' :: rest.takeWhile Char.isDigit) ++
          fracNorm (rest.dropWhile Char.isDigit)
      else c :: fracNorm rest := by
  show fracNormGo (rest.length + 1) (c :: rest) = _
  rw [fracNormGo]
  by_cases hc : c = '.' ∧ headIsDigit rest
  · rw [if_pos hc, if_pos hc,
      fracNormGo_eq (rest.dropWhile Char.isDigit) rest.length (dropWhile_length_le _ _)]
  · rw [if_neg hc, if_neg hc, fracNormGo_eq rest rest.length le_rfl]

theorem takeWhile_append_stop (a t : List Char) (ht : headIsDigit t = false) :
    (a ++ t).takeWhile Char.isDigit = a.takeWhile Char.isDigit
    ∧ (a ++ t).dropWhile Char.isDigit = a.dropWhile Char.isDigit ++ t := by
  induction a with
  | nil =>
      constructor <;> simp only [List.nil_append]
      · cases t with
        | nil => rfl
        | cons c rest =>
            simp only [headIsDigit] at ht
            simp [List.takeWhile_cons, ht]
      · cases t with
        | nil => rfl
        | cons c rest =>
            simp only [headIsDigit] at ht
            simp [List.dropWhile_cons, ht]
  | cons c a ih =>
      by_cases hc : c.isDigit = true <;>
        simp [List.takeWhile_cons, List.dropWhile_cons, hc, ih.1, ih.2]

theorem fracNorm_append : (p t : List Char) → headIsDigit t = false →
    fracNorm (p ++ t) = fracNorm p ++ fracNorm t
  | [], t, _ => by simp [fracNorm_nil]
  | c :: rest, t, ht => by
      rw [List.cons_append, fracNorm_cons, fracNorm_cons]
      cases rest with
      | nil =>
          have h1 : ¬(c = '.' ∧ headIsDigit ([] ++ t)) := by
            simp only [List.nil_append, ht]
            simp
          have h2 : ¬(c = '.' ∧ headIsDigit ([] : List Char)) := by
            simp [headIsDigit]
          rw [if_neg h1, if_neg h2]
          simp [fracNorm_nil]
      | cons r rs =>
          have hh : headIsDigit ((r :: rs) ++ t) = headIsDigit (r :: rs) := rfl
          by_cases hc : c = '.' ∧ headIsDigit (r :: rs)
          · rw [if_pos (by rw [hh]; exact hc), if_pos hc,
              (takeWhile_append_stop (r :: rs) t ht).1,
              (takeWhile_append_stop (r :: rs) t ht).2,
              fracNorm_append ((r :: rs).dropWhile Char.isDigit) t ht,
              List.append_assoc]
          · rw [if_neg (by rw [hh]; exact hc), if_neg hc,
              fracNorm_append (r :: rs) t ht, List.cons_append]
termination_by p _ _ => p.length
decreasing_by
  all_goals first
    | exact lt_of_le_of_lt (dropWhile_length_le _ _) (Nat.lt_succ_self _)
    | exact Nat.lt_succ_self _

theorem fracNorm_no_dot : (t : List Char) → ('.' ∈ t → False) →
    fracNorm t = t
  | [], _ => rfl
  | c :: rest, h => by
      rw [fracNorm_cons, if_neg, fracNorm_no_dot rest (fun hm => h (List.mem_cons_of_mem _ hm))]
      intro hc
      exact h (hc.1 ▸ List.mem_cons_self _ _)

/-- The claim's "exactly 6 digits of sub-second precision": pad with
trailing zeros to 6 digits, truncating if longer. -/
def sixDigits (ds : List Char) : List Char :=
  (ds ++ List.replicate (6 - ds.length) '0').take 6

theorem pad7_dot (ds : List Char) : pad7 ('.' :: ds) = '.' :: sixDigits ds := by
  simp [pad7, sixDigits, List.take_succ_cons]

theorem nat2_digits {a b : Char} {v : Nat} (h : nat2 a b = some v) :
    a.isDigit = true ∧ b.isDigit = true := by
  unfold nat2 at h
  split_ifs at h with hd
  exact hd

theorem nat4_digits {a b c d : Char} {v : Nat} (h : nat4 a b c d = some v) :
    a.isDigit = true ∧ b.isDigit = true ∧ c.isDigit = true ∧ d.isDigit = true := by
  unfold nat4 at h
  split_ifs at h with hd
  exact hd

theorem parseFrac_digits {cs : List Char} {us : Nat} (h : parseFrac cs = .ok us) :
    ∀ c ∈ cs, c.isDigit = true := by
  unfold parseFrac at h
  split_ifs at h with h1 h2
  · exact fun c hc => List.all_eq_true.mp h1.2 c hc
  · exact fun c hc => List.all_eq_true.mp h2.2 c hc

/-- A successful `_parse_hh_mm_ss_ff` consumes only digits, `:` and `.`,
so in particular never a `+`. -/
theorem parseHMSF_no_plus : ∀ (ts : List Char) (r : Nat × Nat × Nat × Nat),
    parseHMSF ts = .ok r → (('+' : Char) ∈ ts → False) := by
  intro ts r h hmem
  cases ts with
  | nil => simp at hmem
  | cons h1 ts1 =>
  cases ts1 with
  | nil => simp [parseHMSF] at h
  | cons h2 rest =>
  rw [parseHMSF] at h
  cases hn : nat2 h1 h2 with
  | none => simp [hn] at h
  | some hv =>
  simp only [hn] at h
  have hd12 := nat2_digits hn
  rcases List.mem_cons.mp hmem with h1eq | hmem1
  · rw [← h1eq] at hd12
    simp at hd12
  rcases List.mem_cons.mp hmem1 with h2eq | hmem2
  · rw [← h2eq] at hd12
    simp at hd12
  cases rest with
  | nil => simp at hmem2
  | cons c3 rest2 =>
  dsimp only at h
  by_cases hc3 : c3 = ':'
  · subst hc3
    rw [if_pos rfl] at h
    rcases List.mem_cons.mp hmem2 with hceq | hmem3
    · simp at hceq
    cases rest2 with
    | nil => simp at h
    | cons m1 rest2a =>
    cases rest2a with
    | nil => simp at h
    | cons m2 rest3 =>
    dsimp only at h
    cases hm : nat2 m1 m2 with
    | none => simp [hm] at h
    | some mv =>
    simp only [hm] at h
    have hdm := nat2_digits hm
    rcases List.mem_cons.mp hmem3 with hmeq | hmem4
    · rw [← hmeq] at hdm
      simp at hdm
    rcases List.mem_cons.mp hmem4 with hmeq | hmem5
    · rw [← hmeq] at hdm
      simp at hdm
    cases rest3 with
    | nil => simp at hmem5
    | cons c6 rest4 =>
    dsimp only at h
    by_cases hc6 : c6 = ':'
    · subst hc6
      rw [if_pos rfl] at h
      rcases List.mem_cons.mp hmem5 with hceq | hmem6
      · simp at hceq
      cases rest4 with
      | nil => simp at h
      | cons s1 rest4a =>
      cases rest4a with
      | nil => simp at h
      | cons s2 rest5 =>
      dsimp only at h
      cases hs : nat2 s1 s2 with
      | none => simp [hs] at h
      | some sv =>
      simp only [hs] at h
      have hds := nat2_digits hs
      rcases List.mem_cons.mp hmem6 with hseq | hmem7
      · rw [← hseq] at hds
        simp at hds
      rcases List.mem_cons.mp hmem7 with hseq | hmem8
      · rw [← hseq] at hds
        simp at hds
      cases rest5 with
      | nil => simp at hmem8
      | cons c9 frac =>
      dsimp only at h
      by_cases hc9 : c9 = '.'
      · subst hc9
        rw [if_pos rfl] at h
        rcases List.mem_cons.mp hmem8 with hceq | hmem9
        · simp at hceq
        cases hf : parseFrac frac with
        | error e => simp [hf, Except.map] at h
        | ok us =>
            have := parseFrac_digits hf _ hmem9
            simp at this
      · rw [if_neg hc9] at h
        simp at h
    · rw [if_neg hc6] at h
      simp at h
  · rw [if_neg hc3] at h
    simp at h

/-- A successful `_parse_isoformat_date` consumes only digits and the
two `-` separators, so never a `+`. -/
theorem parseIsoDate_no_plus : ∀ (ds : List Char) (r : Nat × Nat × Nat),
    parseIsoDate ds = .ok r → (('+' : Char) ∈ ds → False) := by
  intro ds r h hmem
  cases ds with
  | nil => simp at hmem
  | cons y1 t1 =>
  cases t1 with
  | nil => simp [parseIsoDate] at h
  | cons y2 t2 =>
  cases t2 with
  | nil => simp [parseIsoDate] at h
  | cons y3 t3 =>
  cases t3 with
  | nil => simp [parseIsoDate] at h
  | cons y4 t4 =>
  cases t4 with
  | nil => simp [parseIsoDate] at h
  | cons c5 t5 =>
  cases t5 with
  | nil => simp [parseIsoDate] at h
  | cons m1 t6 =>
  cases t6 with
  | nil => simp [parseIsoDate] at h
  | cons m2 t7 =>
  cases t7 with
  | nil => simp [parseIsoDate] at h
  | cons c8 t8 =>
  cases t8 with
  | nil => simp [parseIsoDate] at h
  | cons d1 t9 =>
  cases t9 with
  | nil => simp [parseIsoDate] at h
  | cons d2 t10 =>
  cases t10 with
  | cons e t11 => simp [parseIsoDate] at h
  | nil =>
  rw [parseIsoDate] at h
  split_ifs at h with hsep
  cases hy : nat4 y1 y2 y3 y4 with
  | none => simp [hy] at h
  | some yv =>
  cases hm : nat2 m1 m2 with
  | none => simp [hy, hm] at h
  | some mv =>
  cases hd : nat2 d1 d2 with
  | none => simp [hy, hm, hd] at h
  | some dv =>
  have h4 := nat4_digits hy
  have hdm := nat2_digits hm
  have hdd := nat2_digits hd
  simp only [List.mem_cons, List.not_mem_nil, or_false] at hmem
  rcases hmem with rfl | rfl | rfl | rfl | rfl | rfl | rfl | rfl | rfl | rfl
  · simp at h4
  · simp at h4
  · simp at h4
  · simp at h4
  · simp at hsep
  · simp at hdm
  · simp at hdm
  · simp at hsep
  · simp at hdd
  · simp at hdd

/-- `_parse_isoformat_time` on a time string that ends with the appended
`"+00:00"`: if it succeeds at all, the offset it returns is exactly
`+00:00`.  Either the appended `+` is the first sign of the string (then
the offset text is exactly `"00:00"`), or an earlier sign makes the
offset text contain the appended `+`, which no `_parse_hh_mm_ss_ff`
success allows. -/
theorem parseIsoTime_append_utc (t : List Char) (r : Nat × Nat × Nat × Nat × Option Int)
    (h : parseIsoTime (t ++ utcOffsetChars) = .ok r) : r.2.2.2.2 = some 0 := by
  have hplus_mem : ('+' : Char) ∈ utcOffsetChars := by decide
  unfold parseIsoTime at h
  rw [if_neg (by simp [utcOffsetChars])] at h
  cases hm : List.findIdx? (fun c => c = '-') t with
  | some j =>
      have hj : j < t.length := (List.findIdx?_eq_some_iff_findIdx_eq.mp hm).1
      have hsplit : tzSplitIdx (t ++ utcOffsetChars) = some j := by
        unfold tzSplitIdx
        rw [List.findIdx?_append, hm]
        rfl
      rw [hsplit] at h
      dsimp only at h
      have hdrop : (t ++ utcOffsetChars).drop (j + 1) = t.drop (j + 1) ++ utcOffsetChars := by
        rw [List.drop_append_eq_append_drop, Nat.sub_eq_zero_of_le (by omega),
          List.drop_zero]
      rw [hdrop] at h
      cases hph : parseHMSF ((t ++ utcOffsetChars).take j) with
      | error e => rw [hph] at h; simp at h
      | ok hms =>
          obtain ⟨a, b, c, d⟩ := hms
          rw [hph] at h
          dsimp only at h
          by_cases hlen : ((t.drop (j + 1) ++ utcOffsetChars).length = 5
              ∨ (t.drop (j + 1) ++ utcOffsetChars).length = 8
              ∨ (t.drop (j + 1) ++ utcOffsetChars).length = 15)
          · rw [if_pos hlen] at h
            cases hpz : parseHMSF (t.drop (j + 1) ++ utcOffsetChars) with
            | error e => rw [hpz] at h; simp at h
            | ok tzc =>
                exact (parseHMSF_no_plus _ _ hpz (List.mem_append_right _ hplus_mem)).elim
          · rw [if_neg hlen] at h
            simp at h
  | none =>
      have hminus : List.findIdx? (fun c => c = '-') (t ++ utcOffsetChars) = none := by
        rw [List.findIdx?_append, hm]
        simp [show List.findIdx? (fun c => c = '-') utcOffsetChars = none from by decide]
      cases hp : List.findIdx? (fun c => c = '+') t with
      | some j =>
          have hj : j < t.length := (List.findIdx?_eq_some_iff_findIdx_eq.mp hp).1
          have hsplit : tzSplitIdx (t ++ utcOffsetChars) = some j := by
            unfold tzSplitIdx
            rw [hminus, List.findIdx?_append, hp]
            rfl
          rw [hsplit] at h
          dsimp only at h
          have hdrop : (t ++ utcOffsetChars).drop (j + 1)
              = t.drop (j + 1) ++ utcOffsetChars := by
            rw [List.drop_append_eq_append_drop, Nat.sub_eq_zero_of_le (by omega),
              List.drop_zero]
          rw [hdrop] at h
          cases hph : parseHMSF ((t ++ utcOffsetChars).take j) with
          | error e => rw [hph] at h; simp at h
          | ok hms =>
              obtain ⟨a, b, c, d⟩ := hms
              rw [hph] at h
              dsimp only at h
              by_cases hlen : ((t.drop (j + 1) ++ utcOffsetChars).length = 5
                  ∨ (t.drop (j + 1) ++ utcOffsetChars).length = 8
                  ∨ (t.drop (j + 1) ++ utcOffsetChars).length = 15)
              · rw [if_pos hlen] at h
                cases hpz : parseHMSF (t.drop (j + 1) ++ utcOffsetChars) with
                | error e => rw [hpz] at h; simp at h
                | ok tzc =>
                    exact (parseHMSF_no_plus _ _ hpz
                      (List.mem_append_right _ hplus_mem)).elim
              · rw [if_neg hlen] at h
                simp at h
      | none =>
          have hsplit : tzSplitIdx (t ++ utcOffsetChars) = some t.length := by
            unfold tzSplitIdx
            rw [hminus, List.findIdx?_append, hp]
            simp [show List.findIdx? (fun c => c = '+') utcOffsetChars = some 0 from by decide]
          rw [hsplit] at h
          dsimp only at h
          rw [show (t ++ utcOffsetChars).take t.length = t from
            List.take_left t utcOffsetChars] at h
          have hdrop : (t ++ utcOffsetChars).drop (t.length + 1)
              = ['0', '0', ':', '0', '0'] := by
            rw [List.drop_append_eq_append_drop, List.drop_eq_nil_of_le (by omega)]
            have h1 : t.length + 1 - t.length = 1 := by omega
            rw [h1]
            rfl
          rw [hdrop] at h
          cases hph : parseHMSF t with
          | error e => rw [hph] at h; simp at h
          | ok hms =>
              obtain ⟨a, b, c, d⟩ := hms
              rw [hph] at h
              dsimp only at h
              rw [if_pos (by decide)] at h
              rw [show parseHMSF ['0', '0', ':', '0', '0'] = .ok (0, 0, 0, 0) from rfl] at h
              dsimp only at h
              rw [if_pos (by norm_num)] at h
              injection h with h'
              rw [← h']

/-- `fromisoformat` on a string that ends with the appended `"+00:00"`:
a successful parse is either offset-naive (the appended text was eaten
as separator-plus-bare-time, the C8 slip) or carries offset exactly
`+00:00`; it is never converted to any other zone. -/
theorem fromisoformat_append_utc (q : List Char) (dt : PyDateTime)
    (h : fromisoformat (q ++ utcOffsetChars) = .ok dt) :
    dt.utcoffset = none ∨ dt.utcoffset = some 0 := by
  unfold fromisoformat at h
  dsimp only at h
  rcases lt_trichotomy q.length 10 with hq | hq | hq
  · cases hd : parseIsoDate ((q ++ utcOffsetChars).take 10) with
    | error e => rw [hd] at h; simp at h
    | ok ymd =>
        exfalso
        apply parseIsoDate_no_plus _ _ hd
        rw [List.take_append_eq_append_take]
        apply List.mem_append_right
        rw [show utcOffsetChars = '+' :: ['0', '0', ':', '0', '0'] from rfl]
        cases hk : 10 - q.length with
        | zero => omega
        | succ k => simp
  · have hdstr : (q ++ utcOffsetChars).take 10 = q := by
      rw [← hq]
      exact List.take_left q utcOffsetChars
    have htstr : (q ++ utcOffsetChars).drop 11 = ['0', '0', ':', '0', '0'] := by
      rw [List.drop_append_eq_append_drop, List.drop_eq_nil_of_le (by omega), hq]
      rfl
    rw [hdstr, htstr] at h
    cases hd : parseIsoDate q with
    | error e => rw [hd] at h; simp at h
    | ok ymd =>
        obtain ⟨y, m, d⟩ := ymd
        rw [hd] at h
        dsimp only at h
        rw [show (['0', '0', ':', '0', '0'] : List Char).isEmpty = false from rfl] at h
        rw [show parseIsoTime ['0', '0', ':', '0', '0']
            = .ok (0, 0, 0, (0 : Nat), (none : Option Int)) from rfl] at h
        simp only [Bool.false_eq_true, if_false] at h
        split_ifs at h with h1 h2
        injection h with h'
        rw [← h']
        exact Or.inl rfl
  · have hdstr : (q ++ utcOffsetChars).take 10 = q.take 10 := by
      rw [List.take_append_eq_append_take, Nat.sub_eq_zero_of_le (by omega),
        List.take_zero, List.append_nil]
    have htstr : (q ++ utcOffsetChars).drop 11 = q.drop 11 ++ utcOffsetChars := by
      rw [List.drop_append_eq_append_drop, Nat.sub_eq_zero_of_le (by omega),
        List.drop_zero]
    rw [hdstr, htstr] at h
    cases hd : parseIsoDate (q.take 10) with
    | error e => rw [hd] at h; simp at h
    | ok ymd =>
        obtain ⟨y, m, d⟩ := ymd
        rw [hd] at h
        dsimp only at h
        have hne : (q.drop 11 ++ utcOffsetChars).isEmpty = false := by
          cases hqd : q.drop 11 <;> rfl
        rw [hne] at h
        rw [show (if (false = true) then Except.ok (0, 0, 0, (0 : Nat), (none : Option Int))
            else parseIsoTime (q.drop 11 ++ utcOffsetChars))
            = parseIsoTime (q.drop 11 ++ utcOffsetChars) from by simp] at h
        cases hti : parseIsoTime (q.drop 11 ++ utcOffsetChars) with
        | error e => rw [hti] at h; simp at h
        | ok r5 =>
            obtain ⟨a, b, c, d5, tz⟩ := r5
            have htz : tz = some 0 := parseIsoTime_append_utc (q.drop 11) _ hti
            rw [hti] at h
            dsimp only at h
            split_ifs at h with h1 h2
            injection h with h'
            rw [← h']
            exact Or.inr htz

/-- C2 counterexample: on `"2023-01-01T00:00:00+05:00"`, which carries an
explicit non-UTC offset suffix, `to_timestamp` does not keep that offset:
it appends `"+00:00"` after it (the substring test looks only for the
literal `"+00:00"`) and parsing fails, instead of returning an instant
with offset `+05:00` as the claim states. -/
theorem c2_counterexample :
    to_timestamp (some "2023-01-01T00:00:00+05:00") = .error "Invalid isoformat string"
    ∧ containsSub utcOffsetChars (zStrip "2023-01-01T00:00:00+05:00".data) = false := by
  constructor <;> decide

/-- The append branch of `to_timestamp`: when the `Z`-stripped string
does not contain `"+00:00"`, the normalizer appends it (the fraction
rewrite never touches the appended suffix). -/
theorem normalize_not_contains (cs : List Char)
    (h : containsSub utcOffsetChars (zStrip cs) = false) :
    normalizeTimestampChars cs = fracNorm (zStrip cs) ++ utcOffsetChars := by
  have hsplit := fracNorm_append (zStrip cs) utcOffsetChars (by decide)
  simp [normalizeTimestampChars, h, hsplit,
    show fracNorm utcOffsetChars = utcOffsetChars from by decide]

/-- The no-append branch of `to_timestamp`: a string already containing
`"+00:00"` is only fraction-normalized. -/
theorem normalize_contains (cs : List Char)
    (h : containsSub utcOffsetChars (zStrip cs) = true) :
    normalizeTimestampChars cs = fracNorm (zStrip cs) := by
  simp [normalizeTimestampChars, h]

/-- C2 (amended): the normalizer appends `"+00:00"` exactly when the
`Z`-stripped string does not contain the literal substring `"+00:00"`;
any other `±HH:MM` offset suffix is not recognized, so `"+00:00"` is
appended after it as well (and parsing then fails, see the
counterexample).  In the append case the inferred offset is never
converted to a different zone: whenever parsing succeeds, the instant
carries offset exactly `+00:00` — or no offset at all, the offset-naive
slip recorded by C8. -/
theorem c2_offset_append_amended :
    (∀ cs : List Char, containsSub utcOffsetChars (zStrip cs) = false →
      normalizeTimestampChars cs = fracNorm (zStrip cs) ++ utcOffsetChars)
    ∧ (∀ cs : List Char, containsSub utcOffsetChars (zStrip cs) = true →
      normalizeTimestampChars cs = fracNorm (zStrip cs))
    ∧ (∀ (s : String) (dt : PyDateTime),
      containsSub utcOffsetChars (zStrip s.data) = false →
      to_timestamp (some s) = .ok (some dt) →
      dt.utcoffset = none ∨ dt.utcoffset = some 0) := by
  refine ⟨normalize_not_contains, normalize_contains, fun s dt hns hok => ?_⟩
  by_cases hs : s = ""
  · rw [hs] at hok
    simp [to_timestamp] at hok
  · unfold to_timestamp at hok
    dsimp only at hok
    rw [if_neg hs] at hok
    cases hfi : fromisoformat (normalizeTimestampChars s.data) with
    | error e => rw [hfi] at hok; simp at hok
    | ok dt2 =>
        rw [hfi] at hok
        injection hok with h1
        injection h1 with h2
        rw [← h2]
        apply fromisoformat_append_utc (fracNorm (zStrip s.data))
        rw [← normalize_not_contains s.data hns]
        exact hfi

/-- Witness for C2 (amended) at concrete inputs: a string without
`"+00:00"` (appended), one with it (left alone), and the offset
conclusion at a successfully parsed zone-less timestamp. -/
theorem c2_offset_append_amended_witness :
    normalizeTimestampChars "2023-01-01T00:00:00".data
      = fracNorm (zStrip "2023-01-01T00:00:00".data) ++ utcOffsetChars
    ∧ normalizeTimestampChars "2023-01-01T00:00:00+00:00".data
      = fracNorm (zStrip "2023-01-01T00:00:00+00:00".data)
    ∧ ((⟨2023, 1, 1, 0, 0, 0, 0, some 0⟩ : PyDateTime).utcoffset = none
        ∨ (⟨2023, 1, 1, 0, 0, 0, 0, some 0⟩ : PyDateTime).utcoffset = some 0) :=
  ⟨c2_offset_append_amended.1 _ (by decide),
   c2_offset_append_amended.2.1 _ (by decide),
   c2_offset_append_amended.2.2 "2023-01-01T00:00:00" ⟨2023, 1, 1, 0, 0, 0, 0, some 0⟩
     (by decide) (by decide)⟩

/-- C6: every maximal `.digits` fraction run is rewritten to a dot plus
exactly 6 digits (padded with trailing zeros, truncated if longer), and
the two example strings both normalize to the instant
2023-05-01 10:00:00.500000+00:00. -/
theorem c6_fraction_six_digits :
    (∀ p ds q : List Char, ('.' ∈ p → False) → ds ≠ [] →
      ds.all Char.isDigit = true → headIsDigit q = false →
      fracNorm (p ++ '.' :: (ds ++ q)) = p ++ '.' :: (sixDigits ds ++ fracNorm q))
    ∧ to_timestamp (some "2023-05-01T10:00:00.5")
        = .ok (some ⟨2023, 5, 1, 10, 0, 0, 500000, some 0⟩)
    ∧ to_timestamp (some "2023-05-01T10:00:00.500000123")
        = .ok (some ⟨2023, 5, 1, 10, 0, 0, 500000, some 0⟩) := by
  refine ⟨fun p ds q hp hds hdig hq => ?_, by decide, by decide⟩
  have hhead : headIsDigit ('.' :: (ds ++ q)) = false := by
    simp [headIsDigit]
  rw [fracNorm_append p ('.' :: (ds ++ q)) hhead, fracNorm_no_dot p hp,
    fracNorm_cons]
  have hcond : ('.' : Char) = '.' ∧ headIsDigit (ds ++ q) = true := by
    refine ⟨rfl, ?_⟩
    cases ds with
    | nil => exact absurd rfl hds
    | cons d ds' =>
        have : d.isDigit = true := by
          have := hdig
          simp [List.all_cons] at this
          exact this.1
        simp [headIsDigit, this]
  rw [if_pos hcond]
  have htq : q.takeWhile Char.isDigit = [] := by
    cases q with
    | nil => rfl
    | cons c rest =>
        simp only [headIsDigit] at hq
        simp [List.takeWhile_cons, hq]
  have htake : (ds ++ q).takeWhile Char.isDigit = ds := by
    rw [(takeWhile_append_stop ds q hq).1, List.takeWhile_eq_self_iff.mpr]
    intro c hc
    have := hdig
    rw [List.all_eq_true] at this
    exact this c hc
  have hdrop : (ds ++ q).dropWhile Char.isDigit = q := by
    rw [(takeWhile_append_stop ds q hq).2, List.dropWhile_eq_nil_iff.mpr, List.nil_append]
    intro c hc
    have := hdig
    rw [List.all_eq_true] at this
    exact this c hc
  rw [htake, hdrop, pad7_dot]
  simp

/-- Witness for C6's universal part at the example: prefix
`"2023-05-01T10:00:00"`, fraction digits `"500000123"`, empty suffix. -/
theorem c6_fraction_six_digits_witness :
    fracNorm ("2023-05-01T10:00:00".data ++ '.' :: ("500000123".data ++ []))
      = "2023-05-01T10:00:00".data ++ '.' :: (sixDigits "500000123".data ++ fracNorm []) :=
  c6_fraction_six_digits.1 _ _ _ (by decide) (by decide) (by decide) (by decide)

/-- C7: absent or empty input gives an absent result (`ok none`); a
non-empty input never gives an absent result — it is either a parsed
instant or a `ValueError` — and `"not-a-date"` raises. -/
theorem c7_absent_vs_parse_error :
    to_timestamp none = .ok none
    ∧ to_timestamp (some "") = .ok none
    ∧ (∀ s : String, s ≠ "" → to_timestamp (some s) ≠ .ok none)
    ∧ to_timestamp (some "not-a-date") = .error "Invalid isoformat string" := by
  refine ⟨rfl, rfl, fun s hs => ?_, by decide⟩
  unfold to_timestamp
  cases hp : fromisoformat (normalizeTimestampChars s.data) <;> simp [hs, hp]

/-- Witness for C7's universal part at `"not-a-date"` and at a parseable
string. -/
theorem c7_absent_vs_parse_error_witness :
    to_timestamp (some "not-a-date") ≠ .ok none
    ∧ to_timestamp (some "2023-01-01T00:00:00") ≠ .ok none :=
  ⟨c7_absent_vs_parse_error.2.2.1 _ (by decide),
   c7_absent_vs_parse_error.2.2.1 _ (by decide)⟩

/-- C8 failing input: `to_timestamp("2023-01-01")` returns an
offset-naive datetime.  The appended `"+00:00"` is consumed by
`fromisoformat` as one separator character plus the bare time `"00:00"`,
leaving no UTC offset — contradicting the claim (and the function's own
docstring, "Construct a UTC offset-aware datetime"). -/
theorem c8_naive_result_on_date_only :
    to_timestamp (some "2023-01-01") = .ok (some ⟨2023, 1, 1, 0, 0, 0, 0, none⟩)
    ∧ (⟨2023, 1, 1, 0, 0, 0, 0, none⟩ : PyDateTime).utcoffset = none := by
  constructor <;> decide

/-! ## Codec (`encode` / `decode` in `utils.py`)

`encode` serializes a dict with `json.dumps` (default separators, ASCII
escapes), UTF-8-encodes and base64-encodes; `decode` base64-decodes with
CPython's non-strict `binascii.a2b_base64` (non-alphabet characters are
skipped; `=` closes a group once at least two data characters are
pending) and then strictly UTF-8-decodes.  Strings are byte-exact byte
lists (`List Nat`). -/

theorem char_toNat_valid (c : Char) :
    c.toNat < 55296 ∨ (57343 < c.toNat ∧ c.toNat < 1114112) := by
  have h := c.valid
  unfold UInt32.isValidChar at h
  exact h

theorem char_ofNat_toNat (n : Nat) (h : Nat.isValidChar n) : (Char.ofNat n).toNat = n := by
  unfold Char.ofNat
  rw [dif_pos h]
  rfl

theorem char_ofNat_eq_of_toNat (n : Nat) (h : Nat.isValidChar n) (c : Char)
    (hc : c.toNat = n) : Char.ofNat n = c := by
  have h2 := char_ofNat_toNat n h
  apply Char.ext
  apply UInt32.toNat.inj
  show (Char.ofNat n).toNat = c.toNat
  omega

/-- The standard base64 alphabet. -/
def b64alphabet : List Char :=
  "ABCDEFGHIJKLMNOPQRSTUVWXYZabcdefghijklmnopqrstuvwxyz0123456789+/".data

/-- Character for a 6-bit group. -/
def b64Char (n : Nat) : Char := b64alphabet.getD n 'A'

/-- Index of a character in the alphabet (`none` = not a data character). -/
def b64Index (c : Char) : Option Nat := b64alphabet.findIdx? (fun x => x = c)

/-- `base64.b64encode`: 3 bytes to 4 characters, `=`-padded tail. -/
def b64encodeBytes : List Nat → List Char
  | a :: b :: c :: rest =>
      b64Char (a / 4) :: b64Char (a % 4 * 16 + b / 16) ::
        b64Char (b % 16 * 4 + c / 64) :: b64Char (c % 64) :: b64encodeBytes rest
  | [a, b] => [b64Char (a / 4), b64Char (a % 4 * 16 + b / 16), b64Char (b % 16 * 4), '=']
  | [a] => [b64Char (a / 4), b64Char (a % 4 * 16), '=', '=']
  | [] => []

/-- Bytes recovered from a (possibly partial) group of 6-bit values. -/
def quadBytes : List Nat → List Nat
  | [s1, s2, s3, s4] => [s1 * 4 + s2 / 16, s2 % 16 * 16 + s3 / 4, s3 % 4 * 64 + s4]
  | [s1, s2, s3] => [s1 * 4 + s2 / 16, s2 % 16 * 16 + s3 / 4]
  | [s1, s2] => [s1 * 4 + s2 / 16]
  | _ => []

/-- CPython's non-strict `binascii.a2b_base64` loop: `quad` holds the
pending 6-bit values of the current group, `pads` the consecutive `=`
count relevant to closing it.  Non-alphabet characters are skipped (they
do not reset `pads`); a data character resets `pads`; `=` closes the
input once at least two data characters are pending and enough pads have
been seen; at the end a pending group of 1 is the "1 more than a
multiple of 4" error and of 2 or 3 the "Incorrect padding" error. -/
def a2b : List Char → List Nat → Nat → List Nat → Except String (List Nat)
  | [], quad, _, acc =>
    match quad with
    | [] => .ok acc
    | [_] => .error "Invalid base64-encoded string: number of data characters cannot be 1 more than a multiple of 4"
    | _ => .error "Incorrect padding"
  | c :: rest, quad, pads, acc =>
    if c = '=' then
      if 2 ≤ quad.length then
        if 4 ≤ quad.length + (pads + 1) then .ok (acc ++ quadBytes quad)
        else a2b rest quad (pads + 1) acc
      else a2b rest quad pads acc
    else
      match b64Index c with
      | some v =>
          if (quad ++ [v]).length = 4 then a2b rest [] 0 (acc ++ quadBytes (quad ++ [v]))
          else a2b rest (quad ++ [v]) 0 acc
      | none => a2b rest quad pads acc

/-- `base64.b64decode(value)` on a `str` argument: the argument must be
pure ASCII (else `ValueError`), then non-strict `a2b_base64`. -/
def b64decode (cs : List Char) : Except String (List Nat) :=
  if cs.all (fun c => c.toNat < 128) then a2b cs [] 0 []
  else .error "string argument should contain only ASCII characters"

/-- UTF-8 bytes of one character. -/
def utf8EncodeChar (c : Char) : List Nat :=
  if c.toNat < 128 then [c.toNat]
  else if c.toNat < 2048 then [192 + c.toNat / 64, 128 + c.toNat % 64]
  else if c.toNat < 65536 then
    [224 + c.toNat / 4096, 128 + c.toNat / 64 % 64, 128 + c.toNat % 64]
  else
    [240 + c.toNat / 262144, 128 + c.toNat / 4096 % 64, 128 + c.toNat / 64 % 64,
      128 + c.toNat % 64]

/-- `str.encode("utf-8")`. -/
def utf8Encode : List Char → List Nat
  | [] => []
  | c :: rest => utf8EncodeChar c ++ utf8Encode rest

mutual

/-- `bytes.decode("utf-8")`: strict UTF-8 (continuation bytes checked,
overlong encodings, surrogates and values above U+10FFFF rejected).
The lead byte selects the sequence length; `utf8D2`/`utf8D3`/`utf8D4`
consume the continuation bytes. -/
def utf8Decode : List Nat → Option (List Char)
  | [] => some []
  | b :: rest =>
    if b < 128 then (utf8Decode rest).map fun cs => Char.ofNat b :: cs
    else if b < 194 then none
    else if b < 224 then utf8D2 b rest
    else if b < 240 then utf8D3 b rest
    else if b < 245 then utf8D4 b rest
    else none

def utf8D2 (b : Nat) : List Nat → Option (List Char)
  | b2 :: rest2 =>
      if 128 ≤ b2 ∧ b2 < 192 then
        (utf8Decode rest2).map fun cs => Char.ofNat ((b - 192) * 64 + (b2 - 128)) :: cs
      else none
  | [] => none

def utf8D3 (b : Nat) : List Nat → Option (List Char)
  | b2 :: b3 :: rest2 =>
      if 128 ≤ b2 ∧ b2 < 192 ∧ 128 ≤ b3 ∧ b3 < 192 then
        if 2048 ≤ (b - 224) * 4096 + (b2 - 128) * 64 + (b3 - 128)
            ∧ ((b - 224) * 4096 + (b2 - 128) * 64 + (b3 - 128) < 55296
               ∨ 57344 ≤ (b - 224) * 4096 + (b2 - 128) * 64 + (b3 - 128)) then
          (utf8Decode rest2).map fun cs =>
            Char.ofNat ((b - 224) * 4096 + (b2 - 128) * 64 + (b3 - 128)) :: cs
        else none
      else none
  | _ => none

def utf8D4 (b : Nat) : List Nat → Option (List Char)
  | b2 :: b3 :: b4 :: rest2 =>
      if 128 ≤ b2 ∧ b2 < 192 ∧ 128 ≤ b3 ∧ b3 < 192 ∧ 128 ≤ b4 ∧ b4 < 192 then
        if 65536 ≤ (b - 240) * 262144 + (b2 - 128) * 4096 + (b3 - 128) * 64 + (b4 - 128)
            ∧ (b - 240) * 262144 + (b2 - 128) * 4096 + (b3 - 128) * 64 + (b4 - 128)
              < 1114112 then
          (utf8Decode rest2).map fun cs =>
            Char.ofNat ((b - 240) * 262144 + (b2 - 128) * 4096 + (b3 - 128) * 64
              + (b4 - 128)) :: cs
        else none
      else none
  | _ => none

end

def quoteChar : Char := Char.ofNat 34

def backslashChar : Char := Char.ofNat 92

def lbraceChar : Char := Char.ofNat 123

def rbraceChar : Char := Char.ofNat 125

/-- Lowercase hex digit. -/
def hexDig (n : Nat) : Char := if n < 10 then Char.ofNat (48 + n) else Char.ofNat (87 + n)

/-- Four lowercase hex digits, as in `\uXXXX`. -/
def hex4 (n : Nat) : List Char :=
  [hexDig (n / 4096 % 16), hexDig (n / 256 % 16), hexDig (n / 16 % 16), hexDig (n % 16)]

/-- `json.dumps` escaping of one character with `ensure_ascii=True`:
short escapes, `\uXXXX` for other characters outside `0x20..0x7E`
(surrogate pairs above `0xFFFF`), everything else verbatim. -/
def jsonEscapeChar (c : Char) : List Char :=
  if c = quoteChar then [backslashChar, quoteChar]
  else if c = backslashChar then [backslashChar, backslashChar]
  else if c.toNat = 10 then [backslashChar, 'n']
  else if c.toNat = 9 then [backslashChar, 't']
  else if c.toNat = 13 then [backslashChar, 'r']
  else if c.toNat = 8 then [backslashChar, 'b']
  else if c.toNat = 12 then [backslashChar, 'f']
  else if c.toNat < 32 ∨ 126 < c.toNat then
    if c.toNat < 65536 then backslashChar :: 'u' :: hex4 c.toNat
    else
      (backslashChar :: 'u' :: hex4 (55296 + (c.toNat - 65536) / 1024)) ++
        (backslashChar :: 'u' :: hex4 (56320 + (c.toNat - 65536) % 1024))
  else [c]

def jsonEscapeList : List Char → List Char
  | [] => []
  | c :: rest => jsonEscapeChar c ++ jsonEscapeList rest

/-- A JSON string literal. -/
def jsonQuote (s : String) : List Char :=
  quoteChar :: jsonEscapeList s.data ++ [quoteChar]

mutual

/-- `json.dumps(value)` with the default separators `", "` and `": "`,
`ensure_ascii=True`, insertion order kept. -/
def jsonDumps : Value → List Char
  | .null => "null".data
  | .bool true => "true".data
  | .bool false => "false".data
  | .num n => (toString n).data
  | .str s => jsonQuote s
  | .list xs => '[' :: jsonDumpsList xs ++ [']']
  | .dict ps => lbraceChar :: jsonDumpsPairs ps ++ [rbraceChar]

def jsonDumpsList : List Value → List Char
  | [] => []
  | [v] => jsonDumps v
  | v :: v2 :: rest => jsonDumps v ++ ',' :: ' ' :: jsonDumpsList (v2 :: rest)

def jsonDumpsPairs : List (String × Value) → List Char
  | [] => []
  | [(k, v)] => jsonQuote k ++ ':' :: ' ' :: jsonDumps v
  | (k, v) :: p2 :: rest =>
      jsonQuote k ++ ':' :: ' ' :: jsonDumps v ++ ',' :: ' ' :: jsonDumpsPairs (p2 :: rest)

end

/-- `encode(value)` for a string argument. -/
def encode (s : String) : List Char := b64encodeBytes (utf8Encode s.data)

/-- `encode(value)` for a dict argument: `json.dumps` first. -/
def encodeDict (ps : List (String × Value)) : List Char :=
  b64encodeBytes (utf8Encode (jsonDumps (.dict ps)))

/-- `decode(value)`: base64-decode, then UTF-8-decode. -/
def decode (cs : List Char) : Except String (List Char) :=
  match b64decode cs with
  | .error e => .error e
  | .ok bs =>
    match utf8Decode bs with
    | some t => .ok t
    | none => .error "UnicodeDecodeError"

theorem b64Index_b64Char : ∀ n, n < 64 → b64Index (b64Char n) = some n := by decide

theorem b64Char_ne_pad : ∀ n, n < 64 → ¬(b64Char n = '=') := by decide

theorem b64Char_ascii : ∀ n, n < 64 → (b64Char n).toNat < 128 := by decide

theorem a2b_encode : ∀ (bs acc : List Nat), (∀ b ∈ bs, b < 256) →
    a2b (b64encodeBytes bs) [] 0 acc = .ok (acc ++ bs)
  | [], acc, _ => by simp [b64encodeBytes, a2b]
  | [a], acc, h => by
      have ha : a < 256 := h a (by simp)
      have h1 : a / 4 < 64 := by omega
      have h2 : a % 4 * 16 < 64 := by omega
      simp [b64encodeBytes, a2b, b64Index_b64Char _ h1, b64Index_b64Char _ h2,
        b64Char_ne_pad _ h1, b64Char_ne_pad _ h2, quadBytes]
      omega
  | [a, b], acc, h => by
      have ha : a < 256 := h a (by simp)
      have hb : b < 256 := h b (by simp)
      have h1 : a / 4 < 64 := by omega
      have h2 : a % 4 * 16 + b / 16 < 64 := by omega
      have h3 : b % 16 * 4 < 64 := by omega
      simp [b64encodeBytes, a2b, b64Index_b64Char _ h1, b64Index_b64Char _ h2,
        b64Index_b64Char _ h3, b64Char_ne_pad _ h1, b64Char_ne_pad _ h2,
        b64Char_ne_pad _ h3, quadBytes]
      constructor <;> omega
  | a :: b :: c :: rest, acc, h => by
      have ha : a < 256 := h a (by simp)
      have hb : b < 256 := h b (by simp)
      have hc : c < 256 := h c (by simp)
      have h1 : a / 4 < 64 := by omega
      have h2 : a % 4 * 16 + b / 16 < 64 := by omega
      have h3 : b % 16 * 4 + c / 64 < 64 := by omega
      have h4 : c % 64 < 64 := by omega
      have hrest : ∀ x ∈ rest, x < 256 := fun x hx => h x (by simp [hx])
      have hq : quadBytes [a / 4, a % 4 * 16 + b / 16, b % 16 * 4 + c / 64, c % 64]
          = [a, b, c] := by
        simp [quadBytes]
        refine ⟨by omega, by omega, by omega⟩
      simp only [b64encodeBytes]
      simp [a2b, b64Index_b64Char _ h1, b64Index_b64Char _ h2,
        b64Index_b64Char _ h3, b64Index_b64Char _ h4, b64Char_ne_pad _ h1,
        b64Char_ne_pad _ h2, b64Char_ne_pad _ h3, b64Char_ne_pad _ h4, hq]
      rw [a2b_encode rest (acc ++ [a, b, c]) hrest]
      simp

theorem utf8Decode_cons (b : Nat) (rest : List Nat) :
    utf8Decode (b :: rest) =
      if b < 128 then (utf8Decode rest).map fun cs => Char.ofNat b :: cs
      else if b < 194 then none
      else if b < 224 then utf8D2 b rest
      else if b < 240 then utf8D3 b rest
      else if b < 245 then utf8D4 b rest
      else none := by
  rw [utf8Decode]

theorem utf8Decode_encodeChar (c : Char) (rest : List Nat) :
    utf8Decode (utf8EncodeChar c ++ rest) = (utf8Decode rest).map fun cs => c :: cs := by
  have hv := char_toNat_valid c
  by_cases h1 : c.toNat < 128
  · have hvalid : Nat.isValidChar c.toNat := Or.inl (by omega)
    have hc : Char.ofNat c.toNat = c := char_ofNat_eq_of_toNat _ hvalid c rfl
    rw [show utf8EncodeChar c = [c.toNat] from by rw [utf8EncodeChar, if_pos h1],
      List.cons_append, List.nil_append, utf8Decode_cons, if_pos h1, hc]
  · by_cases h2 : c.toNat < 2048
    · have hvalid : Nat.isValidChar c.toNat := Or.inl (by omega)
      rw [show utf8EncodeChar c = [192 + c.toNat / 64, 128 + c.toNat % 64] from by
            rw [utf8EncodeChar, if_neg h1, if_pos h2],
        List.cons_append, List.cons_append, List.nil_append, utf8Decode_cons,
        if_neg (by omega), if_neg (by omega), if_pos (by omega), utf8D2,
        if_pos (by refine ⟨by omega, by omega⟩)]
      have hval : (192 + c.toNat / 64 - 192) * 64 + (128 + c.toNat % 64 - 128)
          = c.toNat := by omega
      rw [hval, char_ofNat_eq_of_toNat _ hvalid c rfl]
    · by_cases h3 : c.toNat < 65536
      · have hvalid : Nat.isValidChar c.toNat := by
          unfold Nat.isValidChar
          omega
        rw [show utf8EncodeChar c
              = [224 + c.toNat / 4096, 128 + c.toNat / 64 % 64, 128 + c.toNat % 64] from by
            rw [utf8EncodeChar, if_neg h1, if_neg h2, if_pos h3],
          List.cons_append, List.cons_append, List.cons_append, List.nil_append,
          utf8Decode_cons, if_neg (by omega), if_neg (by omega), if_neg (by omega),
          if_pos (by omega), utf8D3,
          if_pos (by refine ⟨by omega, by omega, by omega, by omega⟩),
          if_pos (by constructor <;> omega)]
        have hval : (224 + c.toNat / 4096 - 224) * 4096 + (128 + c.toNat / 64 % 64 - 128) * 64
            + (128 + c.toNat % 64 - 128) = c.toNat := by omega
        rw [hval, char_ofNat_eq_of_toNat _ hvalid c rfl]
      · have hvalid : Nat.isValidChar c.toNat := by
          unfold Nat.isValidChar
          omega
        rw [show utf8EncodeChar c
              = [240 + c.toNat / 262144, 128 + c.toNat / 4096 % 64, 128 + c.toNat / 64 % 64,
                  128 + c.toNat % 64] from by
            rw [utf8EncodeChar, if_neg h1, if_neg h2, if_neg h3],
          List.cons_append, List.cons_append, List.cons_append, List.cons_append,
          List.nil_append, utf8Decode_cons, if_neg (by omega), if_neg (by omega),
          if_neg (by omega), if_neg (by omega), if_pos (by omega), utf8D4,
          if_pos (by refine ⟨by omega, by omega, by omega, by omega, by omega, by omega⟩),
          if_pos (by constructor <;> omega)]
        have hval : (240 + c.toNat / 262144 - 240) * 262144
            + (128 + c.toNat / 4096 % 64 - 128) * 4096
            + (128 + c.toNat / 64 % 64 - 128) * 64 + (128 + c.toNat % 64 - 128)
            = c.toNat := by omega
        rw [hval, char_ofNat_eq_of_toNat _ hvalid c rfl]

theorem utf8_roundtrip (cs : List Char) : utf8Decode (utf8Encode cs) = some cs := by
  induction cs with
  | nil => rfl
  | cons c rest ih =>
      simp only [utf8Encode]
      rw [utf8Decode_encodeChar, ih]
      rfl

theorem utf8Encode_lt (cs : List Char) : ∀ b ∈ utf8Encode cs, b < 256 := by
  induction cs with
  | nil => simp [utf8Encode]
  | cons c rest ih =>
      simp only [utf8Encode, List.mem_append]
      rintro b (hb | hb)
      · have hv := char_toNat_valid c
        rw [utf8EncodeChar] at hb
        split_ifs at hb with h1 h2 h3 <;> simp at hb <;> omega
      · exact ih b hb

theorem b64encode_ascii : ∀ bs : List Nat, (∀ b ∈ bs, b < 256) →
    ∀ c ∈ b64encodeBytes bs, c.toNat < 128
  | [], _ => by simp [b64encodeBytes]
  | [a], h => by
      have ha : a < 256 := h a (by simp)
      simp only [b64encodeBytes]
      intro c hc
      simp only [List.mem_cons, List.not_mem_nil, or_false] at hc
      rcases hc with rfl | rfl | rfl | rfl <;>
        first
          | exact b64Char_ascii _ (by omega)
          | decide
  | [a, b], h => by
      have ha : a < 256 := h a (by simp)
      have hb : b < 256 := h b (by simp)
      simp only [b64encodeBytes]
      intro c hc
      simp only [List.mem_cons, List.not_mem_nil, or_false] at hc
      rcases hc with rfl | rfl | rfl | rfl <;>
        first
          | exact b64Char_ascii _ (by omega)
          | decide
  | a :: b :: c :: rest, h => by
      have ha : a < 256 := h a (by simp)
      have hb : b < 256 := h b (by simp)
      have hc : c < 256 := h c (by simp)
      have hrest : ∀ x ∈ rest, x < 256 := fun x hx => h x (by simp [hx])
      simp only [b64encodeBytes]
      intro x hx
      simp only [List.mem_cons] at hx
      rcases hx with rfl | rfl | rfl | rfl | hx
      · exact b64Char_ascii _ (by omega)
      · exact b64Char_ascii _ (by omega)
      · exact b64Char_ascii _ (by omega)
      · exact b64Char_ascii _ (by omega)
      · exact b64encode_ascii rest hrest x hx

theorem decode_encode_aux (t : List Char) :
    decode (b64encodeBytes (utf8Encode t)) = .ok t := by
  unfold decode b64decode
  rw [if_pos (by
    rw [List.all_eq_true]
    intro c hc
    exact decide_eq_true (b64encode_ascii _ (utf8Encode_lt t) c hc))]
  rw [a2b_encode _ [] (utf8Encode_lt t)]
  simp [utf8_roundtrip t]

/-- C3: the codec round-trip law: `decode (encode s)` returns exactly
`s` for every string, and `decode (encode m)` for a mapping returns
exactly the canonical `json.dumps` serialization text of `m` (not a
re-parsed mapping). -/
theorem c3_codec_round_trip :
    (∀ s : String, decode (encode s) = .ok s.data)
    ∧ (∀ ps : List (String × Value), decode (encodeDict ps) = .ok (jsonDumps (.dict ps))) :=
  ⟨fun s => decode_encode_aux s.data, fun ps => decode_encode_aux (jsonDumps (.dict ps))⟩

/-- Well-formed UTF-8 byte sequences, written as the standard byte-range
grammar (RFC 3629 table): ASCII, two-byte `C2..DF`, three-byte `E0..EF`
with the `E0`/`ED` second-byte restrictions (no overlongs, no
surrogates), four-byte `F0..F4` with the `F0`/`F4` restrictions. -/
inductive ValidUtf8 : List Nat → Prop where
  | nil : ValidUtf8 []
  | one (b : Nat) (rest : List Nat) : b < 128 → ValidUtf8 rest → ValidUtf8 (b :: rest)
  | two (b1 b2 : Nat) (rest : List Nat) :
      194 ≤ b1 → b1 < 224 → 128 ≤ b2 → b2 < 192 →
      ValidUtf8 rest → ValidUtf8 (b1 :: b2 :: rest)
  | three (b1 b2 b3 : Nat) (rest : List Nat) :
      224 ≤ b1 → b1 < 240 → 128 ≤ b2 → b2 < 192 → 128 ≤ b3 → b3 < 192 →
      (b1 = 224 → 160 ≤ b2) → (b1 = 237 → b2 < 160) →
      ValidUtf8 rest → ValidUtf8 (b1 :: b2 :: b3 :: rest)
  | four (b1 b2 b3 b4 : Nat) (rest : List Nat) :
      240 ≤ b1 → b1 < 245 → 128 ≤ b2 → b2 < 192 → 128 ≤ b3 → b3 < 192 →
      128 ≤ b4 → b4 < 192 →
      (b1 = 240 → 144 ≤ b2) → (b1 = 244 → b2 < 144) →
      ValidUtf8 rest → ValidUtf8 (b1 :: b2 :: b3 :: b4 :: rest)

set_option maxRecDepth 2000 in
theorem valid_of_decode (cs : List Char) : ∀ bs : List Nat,
    utf8Decode bs = some cs → ValidUtf8 bs := by
  induction cs with
  | nil =>
      intro bs h
      cases bs with
      | nil => exact ValidUtf8.nil
      | cons b rest =>
          rw [utf8Decode_cons] at h
          split_ifs at h with h1 h2 h3 h4 h5
          · rw [Option.map_eq_some'] at h
            obtain ⟨_, _, heq⟩ := h
            cases heq
          · cases rest with
            | nil => simp [utf8D2] at h
            | cons b2 rest2 =>
                rw [utf8D2] at h
                split_ifs at h
                rw [Option.map_eq_some'] at h
                obtain ⟨_, _, heq⟩ := h
                cases heq
          · match rest with
            | [] => simp [utf8D3] at h
            | [b2] => simp [utf8D3] at h
            | b2 :: b3 :: rest2 =>
                rw [utf8D3] at h
                split_ifs at h
                rw [Option.map_eq_some'] at h
                obtain ⟨_, _, heq⟩ := h
                cases heq
          · match rest with
            | [] => simp [utf8D4] at h
            | [b2] => simp [utf8D4] at h
            | [b2, b3] => simp [utf8D4] at h
            | b2 :: b3 :: b4 :: rest2 =>
                rw [utf8D4] at h
                split_ifs at h
                rw [Option.map_eq_some'] at h
                obtain ⟨_, _, heq⟩ := h
                cases heq
  | cons c cs ih =>
      intro bs h
      cases bs with
      | nil => simp [utf8Decode] at h
      | cons b rest =>
          rw [utf8Decode_cons] at h
          split_ifs at h with h1 h2 h3 h4 h5
          · rw [Option.map_eq_some'] at h
            obtain ⟨cs', hdec, heq⟩ := h
            cases heq
            exact ValidUtf8.one b rest (by omega) (ih rest hdec)
          · cases rest with
            | nil => simp [utf8D2] at h
            | cons b2 rest2 =>
                rw [utf8D2] at h
                split_ifs at h with hc
                rw [Option.map_eq_some'] at h
                obtain ⟨cs', hdec, heq⟩ := h
                cases heq
                exact ValidUtf8.two b b2 rest2 (by omega) (by omega) (by omega)
                  (by omega) (ih rest2 hdec)
          · match rest with
            | [] => simp [utf8D3] at h
            | [b2] => simp [utf8D3] at h
            | b2 :: b3 :: rest2 =>
                rw [utf8D3] at h
                split_ifs at h with hc hval
                rw [Option.map_eq_some'] at h
                obtain ⟨cs', hdec, heq⟩ := h
                cases heq
                obtain ⟨hc1, hc2, hc3, hc4⟩ := hc
                obtain ⟨hv1, hv2⟩ := hval
                refine ValidUtf8.three b b2 b3 rest2 (by omega) (by omega) (by omega)
                  (by omega) (by omega) (by omega) (fun hb => by omega)
                  (fun hb => by subst hb; rcases hv2 with hv2 | hv2 <;> omega)
                  (ih rest2 hdec)
          · match rest with
            | [] => simp [utf8D4] at h
            | [b2] => simp [utf8D4] at h
            | [b2, b3] => simp [utf8D4] at h
            | b2 :: b3 :: b4 :: rest2 =>
                rw [utf8D4] at h
                split_ifs at h with hc hval
                rw [Option.map_eq_some'] at h
                obtain ⟨cs', hdec, heq⟩ := h
                cases heq
                obtain ⟨hc1, hc2, hc3, hc4, hc5, hc6⟩ := hc
                obtain ⟨hv1, hv2⟩ := hval
                exact ValidUtf8.four b b2 b3 b4 rest2 (by omega) (by omega) (by omega)
                  (by omega) (by omega) (by omega) (by omega) (by omega)
                  (fun hb => by omega) (fun hb => by omega) (ih rest2 hdec)

theorem decode_of_valid (bs : List Nat) (h : ValidUtf8 bs) :
    ∃ cs, utf8Decode bs = some cs := by
  induction h with
  | nil => exact ⟨[], rfl⟩
  | one b rest hb _ ih =>
      obtain ⟨cs, hcs⟩ := ih
      exact ⟨Char.ofNat b :: cs, by rw [utf8Decode_cons, if_pos hb, hcs]; rfl⟩
  | two b1 b2 rest ha1 ha2 ha3 ha4 _ ih =>
      obtain ⟨cs, hcs⟩ := ih
      refine ⟨Char.ofNat ((b1 - 192) * 64 + (b2 - 128)) :: cs, ?_⟩
      rw [utf8Decode_cons, if_neg (by omega), if_neg (by omega), if_pos (by omega),
        utf8D2, if_pos ⟨by omega, by omega⟩, hcs]
      rfl
  | three b1 b2 b3 rest ha1 ha2 ha3 ha4 ha5 ha6 he0 hed _ ih =>
      obtain ⟨cs, hcs⟩ := ih
      refine ⟨Char.ofNat ((b1 - 224) * 4096 + (b2 - 128) * 64 + (b3 - 128)) :: cs, ?_⟩
      rw [utf8Decode_cons, if_neg (by omega), if_neg (by omega), if_neg (by omega),
        if_pos (by omega), utf8D3, if_pos ⟨by omega, by omega, by omega, by omega⟩]
      rw [if_pos ?_, hcs]
      · rfl
      · constructor
        · by_cases hb : b1 = 224
          · have := he0 hb
            omega
          · omega
        · by_cases hb : b1 = 237
          · have := hed hb
            left
            omega
          · by_cases hb2 : b1 ≤ 236
            · left
              omega
            · right
              omega
  | four b1 b2 b3 b4 rest ha1 ha2 ha3 ha4 ha5 ha6 ha7 ha8 hf0 hf4 _ ih =>
      obtain ⟨cs, hcs⟩ := ih
      refine ⟨Char.ofNat ((b1 - 240) * 262144 + (b2 - 128) * 4096 + (b3 - 128) * 64
        + (b4 - 128)) :: cs, ?_⟩
      rw [utf8Decode_cons, if_neg (by omega), if_neg (by omega), if_neg (by omega),
        if_neg (by omega), if_pos (by omega), utf8D4,
        if_pos ⟨by omega, by omega, by omega, by omega, by omega, by omega⟩]
      rw [if_pos ?_, hcs]
      · rfl
      · constructor
        · by_cases hb : b1 = 240
          · have := hf0 hb
            omega
          · omega
        · by_cases hb : b1 = 244
          · have := hf4 hb
            omega
          · omega

/-- The characters `a2b_base64` treats as meaningful: data characters
and the pad. -/
def b64Relevant (c : Char) : Bool := (b64Index c).isSome || c = '='

theorem a2b_filter : ∀ (cs : List Char) (quad : List Nat) (pads : Nat) (acc : List Nat),
    a2b (cs.filter b64Relevant) quad pads acc = a2b cs quad pads acc
  | [], _, _, _ => rfl
  | c :: rest, quad, pads, acc => by
      by_cases hrel : b64Relevant c = true
      · rw [List.filter_cons_of_pos hrel]
        by_cases hpad : c = '='
        · rw [show a2b (c :: rest.filter b64Relevant) quad pads acc
              = a2b (c :: rest) quad pads acc from ?_]
          rw [a2b, a2b, if_pos hpad, if_pos hpad]
          split_ifs with h1 h2
          · rfl
          · rw [a2b_filter rest quad (pads + 1) acc]
          · rw [a2b_filter rest quad pads acc]
        · have hidx : ∃ v, b64Index c = some v := by
            unfold b64Relevant at hrel
            rw [Bool.or_eq_true] at hrel
            rcases hrel with hrel | hrel
            · exact Option.isSome_iff_exists.mp hrel
            · exact absurd (by simpa using hrel) hpad
          obtain ⟨v, hv⟩ := hidx
          rw [a2b, a2b, if_neg hpad, if_neg hpad, hv]
          dsimp only
          split_ifs with h1
          · rw [a2b_filter rest [] 0 (acc ++ quadBytes (quad ++ [v]))]
          · rw [a2b_filter rest (quad ++ [v]) 0 acc]
      · rw [List.filter_cons_of_neg (by simpa using hrel)]
        have hpad : ¬(c = '=') := by
          intro hc
          apply hrel
          unfold b64Relevant
          rw [hc]
          simp
        have hidx : b64Index c = none := by
          unfold b64Relevant at hrel
          rw [Bool.or_eq_true, not_or] at hrel
          exact Option.not_isSome_iff_eq_none.mp (by simpa using hrel.1)
        rw [show a2b (c :: rest) quad pads acc = a2b rest quad pads acc from by
          rw [a2b, if_neg hpad, hidx]]
        exact a2b_filter rest quad pads acc

/-- C9 counterexample: `"####"` consists entirely of characters that are
not valid base64 (no data characters at all), yet `decode` succeeds and
returns the empty string instead of signalling a `DecodeError`. -/
theorem c9_counterexample :
    decode "####".data = .ok [] ∧ ∀ c ∈ "####".data, b64Index c = none := by
  constructor
  · decide
  · decide

/-- C9 (amended): `decode` never rejects an (ASCII) input merely for
containing non-base64 characters — characters outside the alphabet and
`=` are silently discarded and do not affect the result; it signals a
`DecodeError` exactly when the lenient base64 layer itself fails (ASCII
check, or bad framing of the surviving data characters) or when the
decoded bytes are not well-formed UTF-8 (standard grammar `ValidUtf8`). -/
theorem c9_decode_error_amended :
    (∀ cs : List Char, cs.all (fun c => c.toNat < 128) = true →
      b64decode (cs.filter b64Relevant) = b64decode cs)
    ∧ (∀ cs : List Char,
      (∃ t, decode cs = .ok t) ↔ (∃ bs, b64decode cs = .ok bs ∧ ValidUtf8 bs)) := by
  constructor
  · intro cs hascii
    unfold b64decode
    rw [if_pos hascii, if_pos]
    · exact a2b_filter cs [] 0 []
    · rw [List.all_eq_true] at hascii ⊢
      intro c hc
      exact hascii c (List.mem_of_mem_filter hc)
  · intro cs
    constructor
    · rintro ⟨t, ht⟩
      cases hb : b64decode cs with
      | error e => simp [decode, hb] at ht
      | ok bs =>
          cases hu : utf8Decode bs with
          | none => simp [decode, hb, hu] at ht
          | some u => exact ⟨bs, rfl, valid_of_decode u bs hu⟩
    · rintro ⟨bs, hb, hv⟩
      obtain ⟨cs', hcs'⟩ := decode_of_valid bs hv
      exact ⟨cs', by simp [decode, hb, hcs']⟩

/-- Witness for C9 (amended) at concrete inputs: a filtered input with
garbage characters, and the iff at `"####"`. -/
theorem c9_decode_error_amended_witness :
    b64decode ("a#bc#d".data.filter b64Relevant) = b64decode "a#bc#d".data
    ∧ ((∃ t, decode "####".data = .ok t)
        ↔ (∃ bs, b64decode "####".data = .ok bs ∧ ValidUtf8 bs)) :=
  ⟨c9_decode_error_amended.1 _ (by decide), c9_decode_error_amended.2 _⟩

end Pylitterbot
